import Mathlib

/-!
Verification of the usage-reservation and tiered-billing engine
(`src/app/scripts/redis/reserve_feature.lua`).

The Lua script is embedded shallowly:
* numbers become `ℚ` (the script manipulates decimal amounts);
* a tier's `up_to` field becomes `Option ℚ`, `none` standing for the
  absent/`null` bound that the script treats as `math.huge`;
* the Redis hash behind `KEYS[1]` becomes an association list
  `List (String × ℚ)`; `HGETALL`/field reads default missing fields to `0`
  exactly as `tonumber(ledger_map[k] or '0')` does, and `HINCRBYFLOAT`
  becomes `hincr` (update in place, append when the field is new);
* the script's three `return` shapes become the inductive `ReserveResult`;
  `string.format("%.10f", cost)` becomes `formatFixed10`.
-/

namespace ReserveFeature

/-- A pricing tier, from the JSON shape `{"up_to": 1000, "amount": "0.01"}`;
`up_to = none` models the JSON `null` bound (positive infinity). -/
structure Tier where
  up_to : Option ℚ
  amount : ℚ
deriving DecidableEq, Repr

/-- `a.up_to and tonumber(a.up_to) or math.huge` — the sort key of a tier,
with the absent bound mapped to `⊤`. -/
def tierBound (t : Tier) : WithTop ℚ :=
  match t.up_to with
  | none => ⊤
  | some b => (b : WithTop ℚ)

/-- The ordering used by the script's `table.sort` comparator. -/
def tierLe (a b : Tier) : Prop := tierBound a ≤ tierBound b

instance : DecidableRel tierLe := fun a b => by
  unfold tierLe; infer_instance

instance : IsTotal Tier tierLe := ⟨fun a b => le_total (tierBound a) (tierBound b)⟩

instance : IsTrans Tier tierLe := ⟨fun _ _ _ h h' => le_trans h h'⟩

/-- `table.sort(tiers, ...)`: the script sorts by `up_to` ascending with
`null` (infinity) last.  `table.sort` leaves the order of key-ties
unspecified; insertion sort is one valid realisation. -/
def sortTiers (tiers : List Tier) : List Tier :=
  List.insertionSort tierLe tiers

/-- `math.min(remaining_usage, tier_up_to - previous_up_to)` with the
script's infinity conventions.  `prev = none` (previous bound was infinite)
with a finite `tier_up_to` is unreachable from sorted input; the Lua float
expression is then `b - huge = -huge`, never positive, so `0` is an
observationally equivalent stand-in. -/
def sliceFn (remaining : ℚ) (bound prev : Option ℚ) : ℚ :=
  match bound, prev with
  | none, _ => remaining
  | some _, none => 0
  | some b, some p => min remaining (b - p)

/-- The `for _, tier in ipairs(tiers)` walk of `calculate_tiered_cost`,
carrying `(total_cost, remaining_usage)` and `previous_up_to`. -/
def tierWalk (unit_count : ℚ) : List Tier → ℚ → ℚ → Option ℚ → ℚ × ℚ
  | [], remaining, cost, _ => (cost, remaining)
  | t :: ts, remaining, cost, prev =>
    if remaining ≤ 0 then (cost, remaining)
    else
      let slice := sliceFn remaining t.up_to prev
      if 0 < slice then
        tierWalk unit_count ts (remaining - slice) (cost + slice / unit_count * t.amount) t.up_to
      else
        tierWalk unit_count ts remaining cost t.up_to

/-- The last tier of a list (the script's `tiers[#tiers]` after sorting);
the default is irrelevant, it is only read on non-empty lists. -/
def lastTier (l : List Tier) : Tier := l.getLastD ⟨some 0, 0⟩

/-- `calculate_tiered_cost(usage, tiers, unit_count)` from the Lua script:
sort, walk, then the last-tier fallback for any remaining usage. -/
def calculate_tiered_cost (usage : ℚ) (tiers : List Tier) (unit_count : ℚ) : ℚ :=
  let sorted := sortTiers tiers
  let w := tierWalk unit_count sorted usage 0 (some 0)
  match sorted.getLast? with
  | some t => if 0 < w.2 then w.1 + w.2 / unit_count * t.amount else w.1
  | none => w.1

/-! ### Spec-side transcription of the walk (for the refinement claim C1)

`specStep`/`spec_tiered_walk` are written from the specification's words:
"Walk tiers in sorted order maintaining `previous_bound` (starts at 0) and
`remaining_usage` (starts at `usage`).  For each tier:
`slice = min(remaining_usage, tier.upper_bound - previous_bound)`; if
`slice > 0`, accumulate `cost += (slice / unit_count) * tier.rate` and
subtract `slice` from `remaining_usage`; advance
`previous_bound = tier.upper_bound`.  Stop early once
`remaining_usage <= 0`." -/

structure WalkState where
  prev : Option ℚ
  remaining : ℚ
  cost : ℚ

/-- One step of the spec's walk; stopping early is realised by making the
step the identity once `remaining ≤ 0` (it then stays `≤ 0`). -/
def specStep (unit_count : ℚ) (st : WalkState) (t : Tier) : WalkState :=
  if st.remaining ≤ 0 then st
  else
    let slice : ℚ :=
      match t.up_to, st.prev with
      | none, _ => st.remaining
      | some _, none => 0
      | some b, some p => min st.remaining (b - p)
    if 0 < slice then
      { prev := t.up_to, remaining := st.remaining - slice
        cost := st.cost + slice / unit_count * t.amount }
    else
      { st with prev := t.up_to }

/-- The spec's walk over the sorted tiers, returning `(cost, remaining)`. -/
def spec_tiered_walk (usage : ℚ) (tiers : List Tier) (unit_count : ℚ) : ℚ × ℚ :=
  let final := (sortTiers tiers).foldl (specStep unit_count) ⟨some 0, usage, 0⟩
  (final.cost, final.remaining)

/-! ### The ledger store and the reservation engine -/

/-- The Redis hash behind `KEYS[1]`, as an association list of
field → amount.  Redis hashes have unique fields; `hincr` preserves
uniqueness and `hget` reads the first (hence only) occurrence. -/
abbrev Store := List (String × ℚ)

/-- `tonumber(ledger_map[k] or '0')`: read a field, defaulting to 0. -/
def hget : Store → String → ℚ
  | [], _ => 0
  | (k', v) :: rest, k => if k' = k then v else hget rest k

/-- `redis.call('HINCRBYFLOAT', KEYS[1], k, d)`: add `d` to field `k`,
creating the field when absent. -/
def hincr : Store → String → ℚ → Store
  | [], k, d => [(k, d)]
  | (k', v) :: rest, k, d =>
    if k' = k then (k', v + d) :: rest else (k', v) :: hincr rest k d

/-- `'entitlement:' .. ent_id` — the ledger field of an entitlement. -/
def entKey (id : String) : String := "entitlement:" ++ id

/-- `reserved_from_entitlements[tostring(ent_id)] = consume_from_this`:
Lua table assignment, overwriting any earlier entry for the same id. -/
def setEntry : List (String × ℚ) → String → ℚ → List (String × ℚ)
  | [], k, v => [(k, v)]
  | (k', v') :: rest, k, v =>
    if k' = k then (k', v) :: rest else (k', v') :: setEntry rest k v

/-- Membership test on the in-memory consumption map. -/
def hasEntry : List (String × ℚ) → String → Bool
  | [], _ => false
  | (k', _) :: rest, k => k' = k || hasEntry rest k

/-- Step 2 of the script: `for _, ent_id in ipairs(entitlement_ids)`.
Balances are read from `snapshot` (the one-time `HGETALL` image held in
`ledger_map`), decrements are issued against the live `store`, and each
consume is recorded in `reserved` (overwriting per id).  Returns
`(store, uncovered_usage, reserved_from_entitlements)`. -/
def consumeLoop (snapshot : Store) :
    List String → Store → ℚ → List (String × ℚ) → Store × ℚ × List (String × ℚ)
  | [], store, uncovered, reserved => (store, uncovered, reserved)
  | id :: rest, store, uncovered, reserved =>
    if uncovered ≤ 0 then (store, uncovered, reserved)
    else
      let bal := hget snapshot (entKey id)
      if 0 < bal then
        let consume := min uncovered bal
        consumeLoop snapshot rest (hincr store (entKey id) (-consume))
          (uncovered - consume) (setEntry reserved id consume)
      else
        consumeLoop snapshot rest store uncovered reserved

/-! ### Rendering of `cost_charged` (`string.format("%.10f", cost)`) -/

/-- Exactly `k` decimal digits of `n` (mod `10 ^ k`), most significant
first, with leading zeros. -/
def fixedDigits : Nat → Nat → List Char
  | 0, _ => []
  | k + 1, n => fixedDigits k (n / 10) ++ [Nat.digitChar (n % 10)]

/-- `string.format("%.10f", q)`: a decimal rendering with exactly ten
fractional digits (rounding to nearest, half away from zero). -/
def formatFixed10 (q : ℚ) : String :=
  let scaled : ℤ := ⌊q * 10 ^ 10 + 1 / 2⌋
  let sign : List Char := if scaled < 0 then ['-'] else []
  let a := scaled.natAbs
  String.mk (sign ++ (Nat.repr (a / 10 ^ 10)).data ++ '.' :: fixedDigits 10 (a % 10 ^ 10))

/-- The number of characters after the last `.` of a string (the count of
rendered fractional digits). -/
def fracDigits (s : String) : Nat :=
  (s.data.reverse.takeWhile (fun c => c ≠ '.')).length

/-! ### Result values and the main sequence -/

/-- The three `return` shapes of the script:
`{2, msg}`, `{1, msg, cost_str, consumption_json}`,
`{3, "Success", cost_str, consumption_json}`.  The numeric `cost` that the
script formats into `cost_str` is carried alongside its rendering. -/
inductive ReserveResult where
  | unconfiguredOverage (msg : String)
  | insufficientFunds (msg : String) (cost : ℚ) (cost_str : String)
      (consumption : List (String × ℚ))
  | success (msg : String) (cost : ℚ) (cost_str : String)
      (consumption : List (String × ℚ))
deriving DecidableEq, Repr

/-- The rendered cost carried by a result (`none` when the return shape
has no cost element). -/
def ReserveResult.costStr? : ReserveResult → Option String
  | .unconfiguredOverage _ => none
  | .insufficientFunds _ _ cs _ => some cs
  | .success _ _ cs _ => some cs

/-- The numeric cost carried by a result. -/
def ReserveResult.cost? : ReserveResult → Option ℚ
  | .unconfiguredOverage _ => none
  | .insufficientFunds _ c _ _ => some c
  | .success _ c _ _ => some c

/-- The consumption map carried by a result. -/
def ReserveResult.consumption? : ReserveResult → Option (List (String × ℚ))
  | .unconfiguredOverage _ => none
  | .insufficientFunds _ _ _ cons => some cons
  | .success _ _ _ cons => some cons

def unconfiguredMsg : String :=
  "Entitlements depleted and no pay-as-you-go price is configured for this feature."

def insufficientMsg : String := "Insufficient wallet balance..."

/-- The rollback loop: `for ent_id, amount in pairs(reserved_from_entitlements)
do redis.call('HINCRBYFLOAT', KEYS[1], 'entitlement:' .. ent_id, amount)`. -/
def rollback (reserved : List (String × ℚ)) (store : Store) : Store :=
  reserved.foldl (fun s p => hincr s (entKey p.1) p.2) store

/-- Steps 4–5 of the script: check the wallet and reserve, or roll back,
or return success directly when no cost is due. -/
def finishReserve (store : Store) (wallet_balance cost : ℚ)
    (reserved : List (String × ℚ)) : ReserveResult × Store :=
  if 0 < cost then
    if cost ≤ wallet_balance then
      (.success "Success" cost (formatFixed10 cost) reserved,
        hincr store "wallet_balance" (-cost))
    else
      (.insufficientFunds insufficientMsg cost (formatFixed10 cost) reserved,
        rollback reserved store)
  else
    (.success "Success" cost (formatFixed10 cost) reserved, store)

/-- The whole script, from parsed arguments to `(result, final hash)`.
`store0` is the content of the hash at `KEYS[1]` when the script starts;
the `HGETALL` snapshot (`ledger_map`) is therefore `store0` itself. -/
def reserve_feature (store0 : Store) (total_usage : ℚ)
    (entitlement_ids : List String) (flat_amount unit_count : ℚ)
    (tiers : List Tier) : ReserveResult × Store :=
  let wallet_balance := hget store0 "wallet_balance"
  let r := consumeLoop store0 entitlement_ids store0 total_usage []
  let store1 := r.1
  let uncovered := r.2.1
  let reserved := r.2.2
  if 0 < uncovered then
    if tiers ≠ [] then
      finishReserve store1 wallet_balance
        (calculate_tiered_cost uncovered tiers unit_count) reserved
    else if 0 < flat_amount then
      finishReserve store1 wallet_balance
        (uncovered / unit_count * flat_amount) reserved
    else
      (.unconfiguredOverage unconfiguredMsg, store1)
  else
    finishReserve store1 wallet_balance 0 reserved

/-- Sum of the amounts recorded in a consumption map. -/
def entrySum (m : List (String × ℚ)) : ℚ := (m.map Prod.snd).sum

/-- An independent replay of the script's overage pricing: tiered when a
non-empty tier schedule is present, else flat when `flat_amount > 0`,
else no price. -/
def replayCost (u : ℚ) (tiers : List Tier) (flat_amount unit_count : ℚ) : ℚ :=
  if tiers ≠ [] then calculate_tiered_cost u tiers unit_count
  else if 0 < flat_amount then u / unit_count * flat_amount
  else 0

/-- Entries recorded in a consumption map, summed per ledger field. -/
def entSumAt (m : List (String × ℚ)) (k : String) : ℚ :=
  (m.map (fun p => if entKey p.1 = k then p.2 else 0)).sum

/-! ### Lemmas about the store primitives -/

theorem entKey_ne_wallet (id : String) : entKey id ≠ "wallet_balance" := by
  intro h
  have h2 : (entKey id).data = "wallet_balance".data := by rw [h]
  have h3 : (entKey id).data = "entitlement:".data ++ id.data := by
    cases id; rfl
  rw [h3] at h2
  have h4 : ("entitlement:".data ++ id.data).head? = some 'e' := rfl
  rw [h2] at h4
  have h5 : ("wallet_balance".data).head? = some 'w' := rfl
  rw [h5] at h4
  simp at h4

theorem entKey_inj {a b : String} (h : entKey a = entKey b) : a = b := by
  have h2 : (entKey a).data = (entKey b).data := by rw [h]
  have e1 : (entKey a).data = "entitlement:".data ++ a.data := by cases a; rfl
  have e2 : (entKey b).data = "entitlement:".data ++ b.data := by cases b; rfl
  rw [e1, e2] at h2
  have h3 : a.data = b.data := List.append_cancel_left h2
  cases a; cases b; exact congrArg String.mk h3

theorem hget_hincr (s : Store) (k : String) (d : ℚ) (q : String) :
    hget (hincr s k d) q = if k = q then hget s q + d else hget s q := by
  induction s with
  | nil =>
    simp only [hincr, hget]
    split_ifs <;> simp_all [hget]
  | cons p rest ih =>
    obtain ⟨k', v⟩ := p
    simp only [hincr]
    by_cases hk : k' = k
    · subst hk
      simp only [if_pos rfl, hget]
      split_ifs <;> simp_all
    · rw [if_neg hk]
      simp only [hget]
      by_cases hq : k' = q
      · subst hq
        rw [if_pos rfl, if_pos rfl]
        have : ¬ k = k' := fun h => hk h.symm
        rw [if_neg this]
      · rw [if_neg hq, if_neg hq, ih]

/-- Updating one field leaves every other field unchanged. -/
theorem hget_hincr_ne (s : Store) (k : String) (d : ℚ) (q : String) (h : k ≠ q) :
    hget (hincr s k d) q = hget s q := by
  rw [hget_hincr, if_neg h]

theorem hget_hincr_self (s : Store) (k : String) (d : ℚ) :
    hget (hincr s k d) k = hget s k + d := by
  rw [hget_hincr, if_pos rfl]

theorem setEntry_of_absent (m : List (String × ℚ)) (i : String) (v : ℚ)
    (h : hasEntry m i = false) : setEntry m i v = m ++ [(i, v)] := by
  induction m with
  | nil => rfl
  | cons p rest ih =>
    obtain ⟨k', v'⟩ := p
    simp only [hasEntry, Bool.or_eq_false_iff, decide_eq_false_iff_not] at h
    simp only [setEntry, if_neg h.1, List.cons_append, ih h.2]

theorem hasEntry_append (m m' : List (String × ℚ)) (j : String) :
    hasEntry (m ++ m') j = (hasEntry m j || hasEntry m' j) := by
  induction m with
  | nil => rfl
  | cons p rest ih => simp [hasEntry, ih, Bool.or_assoc]

theorem hget_rollback (m : List (String × ℚ)) (s : Store) (k : String) :
    hget (rollback m s) k = hget s k + entSumAt m k := by
  induction m generalizing s with
  | nil => simp [rollback, entSumAt]
  | cons p rest ih =>
    simp only [rollback, List.foldl_cons] at *
    rw [ih, hget_hincr]
    simp only [entSumAt, List.map_cons, List.sum_cons]
    split_ifs with h <;> ring

theorem rollback_append (m : List (String × ℚ)) (i : String) (c : ℚ) (s : Store) :
    rollback (m ++ [(i, c)]) s = hincr (rollback m s) (entKey i) c := by
  simp [rollback, List.foldl_append]

theorem entrySum_append (m : List (String × ℚ)) (i : String) (c : ℚ) :
    entrySum (m ++ [(i, c)]) = entrySum m + c := by
  simp [entrySum]

theorem entSumAt_append (m : List (String × ℚ)) (i : String) (c : ℚ) (k : String) :
    entSumAt (m ++ [(i, c)]) k = entSumAt m k + (if entKey i = k then c else 0) := by
  simp [entSumAt]

theorem mem_setEntry {m : List (String × ℚ)} {i : String} {v : ℚ} {p : String × ℚ}
    (h : p ∈ setEntry m i v) : p ∈ m ∨ p = (i, v) := by
  induction m with
  | nil => simp only [setEntry, List.mem_singleton] at h; exact Or.inr h
  | cons q rest ih =>
    obtain ⟨k', v'⟩ := q
    simp only [setEntry] at h
    split_ifs at h with hk
    · rcases List.mem_cons.mp h with h | h
      · exact Or.inr (by simpa [hk] using h)
      · exact Or.inl (List.mem_cons_of_mem _ h)
    · rcases List.mem_cons.mp h with h | h
      · exact Or.inl (h ▸ List.mem_cons_self _ _)
      · rcases ih h with h | h
        · exact Or.inl (List.mem_cons_of_mem _ h)
        · exact Or.inr h

/-! ### Lemmas about the entitlement consumption loop -/

/-- Fields other than the consumed entitlements are never written by the
loop. -/
theorem consumeLoop_untouched (snapshot : Store) (ids : List String) :
    ∀ (store : Store) (unc : ℚ) (res : List (String × ℚ)) (k : String),
      k ∉ ids.map entKey →
      hget (consumeLoop snapshot ids store unc res).1 k = hget store k := by
  induction ids with
  | nil => intro store unc res k _; rfl
  | cons id rest ih =>
    intro store unc res k hk
    simp only [List.map_cons, List.mem_cons, not_or] at hk
    simp only [consumeLoop]
    split_ifs with h1 h2
    · rfl
    · rw [ih _ _ _ _ hk.2, hget_hincr_ne _ _ _ _ (fun h => hk.1 h.symm)]
    · exact ih _ _ _ _ hk.2

/-- With distinct entitlement ids, the loop never drives a field negative:
each entitlement is decremented once, by at most its snapshot balance. -/
theorem consumeLoop_nonneg (snapshot : Store) (ids : List String) (hnd : ids.Nodup) :
    ∀ (store : Store) (unc : ℚ) (res : List (String × ℚ)),
      (∀ id ∈ ids, hget store (entKey id) = hget snapshot (entKey id)) →
      (∀ k, 0 ≤ hget store k) →
      ∀ k, 0 ≤ hget (consumeLoop snapshot ids store unc res).1 k := by
  induction ids with
  | nil => intro store unc res _ hpos k; exact hpos k
  | cons id rest ih =>
    intro store unc res hagree hpos k
    obtain ⟨hni, hnd'⟩ := List.nodup_cons.mp hnd
    simp only [consumeLoop]
    split_ifs with h1 h2
    · exact hpos k
    · refine ih hnd' _ _ _ ?_ ?_ k
      · intro id' hid'
        refine (hget_hincr_ne _ _ _ _ ?_).trans
          (hagree id' (List.mem_cons_of_mem _ hid'))
        intro h
        exact hni ((entKey_inj h) ▸ hid')
      · intro q
        rw [hget_hincr]
        split_ifs with hq
        · rw [← hq, hagree id (List.mem_cons_self _ _)]
          have : min unc (hget snapshot (entKey id)) ≤ hget snapshot (entKey id) :=
            min_le_right _ _
          linarith
        · exact hpos q
    · exact ih hnd' _ _ _
        (fun id' hid' => hagree id' (List.mem_cons_of_mem _ hid')) hpos k

/-- With distinct ids (none already recorded), compensating every recorded
`(id, consume)` pair restores the store the loop started from. -/
theorem consumeLoop_restore (snapshot : Store) (ids : List String) (hnd : ids.Nodup) :
    ∀ (store : Store) (unc : ℚ) (res : List (String × ℚ)),
      (∀ id ∈ ids, hasEntry res id = false) →
      ∀ k,
        hget (rollback (consumeLoop snapshot ids store unc res).2.2
          (consumeLoop snapshot ids store unc res).1) k
          = hget (rollback res store) k := by
  induction ids with
  | nil => intro store unc res _ k; rfl
  | cons id rest ih =>
    intro store unc res habs k
    obtain ⟨hni, hnd'⟩ := List.nodup_cons.mp hnd
    simp only [consumeLoop]
    split_ifs with h1 h2
    · rfl
    · rw [setEntry_of_absent _ _ _ (habs id (List.mem_cons_self _ _))]
      rw [ih hnd' _ _ _ ?hyp k]
      case hyp =>
        intro id' hid'
        rw [hasEntry_append, habs id' (List.mem_cons_of_mem _ hid')]
        simp only [hasEntry, Bool.or_false, Bool.false_or, decide_eq_false_iff_not]
        intro h
        exact hni (h ▸ hid')
      rw [hget_rollback, hget_rollback, entSumAt_append, hget_hincr]
      split_ifs with h <;> ring
    · exact ih hnd' _ _ _ (fun id' hid' => habs id' (List.mem_cons_of_mem _ hid')) k

/-- With distinct ids, the uncovered usage drops by exactly the total newly
recorded in the consumption map. -/
theorem consumeLoop_sum (snapshot : Store) (ids : List String) (hnd : ids.Nodup) :
    ∀ (store : Store) (unc : ℚ) (res : List (String × ℚ)),
      (∀ id ∈ ids, hasEntry res id = false) →
      (consumeLoop snapshot ids store unc res).2.1
        = unc - (entrySum (consumeLoop snapshot ids store unc res).2.2 - entrySum res) := by
  induction ids with
  | nil => intro store unc res _; simp [consumeLoop]
  | cons id rest ih =>
    intro store unc res habs
    obtain ⟨hni, hnd'⟩ := List.nodup_cons.mp hnd
    simp only [consumeLoop]
    split_ifs with h1 h2
    · simp
    · rw [setEntry_of_absent _ _ _ (habs id (List.mem_cons_self _ _))]
      rw [ih hnd' _ _ _ ?hyp]
      case hyp =>
        intro id' hid'
        rw [hasEntry_append, habs id' (List.mem_cons_of_mem _ hid')]
        simp only [hasEntry, Bool.or_false, Bool.false_or, decide_eq_false_iff_not]
        intro h
        exact hni (h ▸ hid')
      rw [entrySum_append]
      ring
    · exact ih hnd' _ _ _ (fun id' hid' => habs id' (List.mem_cons_of_mem _ hid'))

/-- Every amount recorded by the loop is strictly positive. -/
theorem consumeLoop_pos_entries (snapshot : Store) (ids : List String) :
    ∀ (store : Store) (unc : ℚ) (res : List (String × ℚ)),
      (∀ p ∈ res, 0 < p.2) →
      ∀ p ∈ (consumeLoop snapshot ids store unc res).2.2, 0 < p.2 := by
  induction ids with
  | nil => intro store unc res hres; exact hres
  | cons id rest ih =>
    intro store unc res hres
    simp only [consumeLoop]
    split_ifs with h1 h2
    · exact hres
    · refine ih _ _ _ ?_
      intro p hp
      rcases mem_setEntry hp with h | h
      · exact hres p h
      · rw [h]
        exact lt_min (lt_of_not_le h1) h2
    · exact ih _ _ _ hres

/-- The uncovered usage never becomes negative. -/
theorem consumeLoop_unc_nonneg (snapshot : Store) (ids : List String) :
    ∀ (store : Store) (unc : ℚ) (res : List (String × ℚ)),
      0 ≤ unc → 0 ≤ (consumeLoop snapshot ids store unc res).2.1 := by
  induction ids with
  | nil => intro store unc res h; exact h
  | cons id rest ih =>
    intro store unc res h
    simp only [consumeLoop]
    split_ifs with h1 h2
    · exact h
    · exact ih _ _ _ (by simp [min_le_left])
    · exact ih _ _ _ h

/-! ### Lemmas about the tier walk -/

theorem tierWalk_of_nonpos (uc : ℚ) (ts : List Tier) (r c : ℚ) (p : Option ℚ)
    (h : r ≤ 0) : tierWalk uc ts r c p = (c, r) := by
  cases ts with
  | nil => rfl
  | cons t ts => simp [tierWalk, if_pos h]

theorem sliceFn_le (r : ℚ) (b p : Option ℚ) (h : 0 ≤ r) : sliceFn r b p ≤ r := by
  cases b with
  | none => exact le_refl r
  | some b' =>
    cases p with
    | none => exact h
    | some p' => exact min_le_left _ _

theorem sliceFn_mono {r1 r2 : ℚ} (b p : Option ℚ) (h : r1 ≤ r2) :
    sliceFn r1 b p ≤ sliceFn r2 b p := by
  cases b with
  | none => exact h
  | some b' =>
    cases p with
    | none => exact le_refl 0
    | some p' => exact min_le_min h (le_refl _)

theorem sliceFn_sub_mono {r1 r2 : ℚ} (b p : Option ℚ) (h : r1 ≤ r2) :
    r1 - sliceFn r1 b p ≤ r2 - sliceFn r2 b p := by
  cases b with
  | none => simp only [sliceFn]; linarith
  | some b' =>
    cases p with
    | none => simp only [sliceFn]; linarith
    | some p' =>
      simp only [sliceFn, min_def]
      split_ifs <;> linarith

theorem sliceFn_nonpos {r1 r2 : ℚ} (b p : Option ℚ) (hr1 : 0 < r1) (h12 : r1 ≤ r2)
    (h : sliceFn r1 b p ≤ 0) : sliceFn r2 b p ≤ 0 := by
  cases b with
  | none => exact absurd h (not_le.mpr hr1)
  | some b' =>
    cases p with
    | none => exact le_refl 0
    | some p' =>
      simp only [sliceFn] at h ⊢
      have hbp : b' - p' ≤ 0 := by
        by_contra hpos
        push_neg at hpos
        exact absurd (lt_min hr1 hpos) (not_lt.mpr h)
      exact le_trans (min_le_right _ _) hbp

/-- The accumulated cost never decreases along the walk (nonnegative rates,
positive unit count). -/
theorem tierWalk_cost_ge (uc : ℚ) (huc : 0 < uc) :
    ∀ (ts : List Tier), (∀ t ∈ ts, 0 ≤ t.amount) →
    ∀ (r c : ℚ) (p : Option ℚ), c ≤ (tierWalk uc ts r c p).1 := by
  intro ts
  induction ts with
  | nil => intro _ r c p; exact le_refl c
  | cons t ts ih =>
    intro hmem r c p
    have hts : ∀ t' ∈ ts, 0 ≤ t'.amount :=
      fun t' ht' => hmem t' (List.mem_cons_of_mem _ ht')
    simp only [tierWalk]
    split_ifs with h1 h2
    · exact le_refl c
    · refine le_trans ?_ (ih hts _ _ _)
      have hamt : 0 ≤ t.amount := hmem t (List.mem_cons_self _ _)
      have : 0 ≤ sliceFn r t.up_to p / uc * t.amount :=
        mul_nonneg (div_nonneg (le_of_lt h2) (le_of_lt huc)) hamt
      linarith
    · exact ih hts _ _ _

/-- The remaining usage never becomes negative along the walk. -/
theorem tierWalk_rem_nonneg (uc : ℚ) :
    ∀ (ts : List Tier) (r c : ℚ) (p : Option ℚ),
      0 ≤ r → 0 ≤ (tierWalk uc ts r c p).2 := by
  intro ts
  induction ts with
  | nil => intro r c p h; exact h
  | cons t ts ih =>
    intro r c p h
    simp only [tierWalk]
    split_ifs with h1 h2
    · exact h
    · exact ih _ _ _ (by linarith [sliceFn_le r t.up_to p h])
    · exact ih _ _ _ h

/-- Monotonicity of the walk in remaining usage and accumulated cost. -/
theorem tierWalk_mono (uc : ℚ) (huc : 0 < uc) :
    ∀ (ts : List Tier), (∀ t ∈ ts, 0 ≤ t.amount) →
    ∀ (r1 r2 c1 c2 : ℚ) (p : Option ℚ), r1 ≤ r2 → c1 ≤ c2 →
      (tierWalk uc ts r1 c1 p).1 ≤ (tierWalk uc ts r2 c2 p).1 ∧
      (tierWalk uc ts r1 c1 p).2 ≤ (tierWalk uc ts r2 c2 p).2 := by
  intro ts
  induction ts with
  | nil => intro _ r1 r2 c1 c2 p hr hc; exact ⟨hc, hr⟩
  | cons t ts ih =>
    intro hmem r1 r2 c1 c2 p hr hc
    have hts : ∀ t' ∈ ts, 0 ≤ t'.amount :=
      fun t' ht' => hmem t' (List.mem_cons_of_mem _ ht')
    have hamt : 0 ≤ t.amount := hmem t (List.mem_cons_self _ _)
    by_cases hr2 : r2 ≤ 0
    · have hr1 : r1 ≤ 0 := le_trans hr hr2
      simp only [tierWalk, if_pos hr1, if_pos hr2]
      exact ⟨hc, hr⟩
    · by_cases hr1 : r1 ≤ 0
      · rw [tierWalk_of_nonpos uc _ r1 c1 p hr1]
        constructor
        · exact le_trans hc (by
            simp only [tierWalk, if_neg hr2]
            split_ifs with hs
            · refine le_trans ?_ (tierWalk_cost_ge uc huc ts hts _ _ _)
              have : 0 ≤ sliceFn r2 t.up_to p / uc * t.amount :=
                mul_nonneg (div_nonneg (le_of_lt hs) (le_of_lt huc)) hamt
              linarith
            · exact tierWalk_cost_ge uc huc ts hts _ _ _)
        · refine le_trans hr1 ?_
          simp only [tierWalk, if_neg hr2]
          split_ifs with hs
          · exact tierWalk_rem_nonneg uc ts _ _ _
              (by linarith [sliceFn_le r2 t.up_to p (by linarith)])
          · exact tierWalk_rem_nonneg uc ts _ _ _ (by linarith)
      · simp only [tierWalk, if_neg hr1, if_neg hr2]
        have hs12 : sliceFn r1 t.up_to p ≤ sliceFn r2 t.up_to p :=
          sliceFn_mono t.up_to p hr
        by_cases hs1 : 0 < sliceFn r1 t.up_to p
        · have hs2 : 0 < sliceFn r2 t.up_to p := lt_of_lt_of_le hs1 hs12
          rw [if_pos hs1, if_pos hs2]
          refine ih hts _ _ _ _ _ (sliceFn_sub_mono t.up_to p hr) ?_
          have : sliceFn r1 t.up_to p / uc * t.amount
              ≤ sliceFn r2 t.up_to p / uc * t.amount := by gcongr
          linarith
        · have hs2 : ¬ 0 < sliceFn r2 t.up_to p := by
            intro h
            exact absurd (sliceFn_nonpos t.up_to p (by linarith) hr (not_lt.mp hs1))
              (not_le.mpr h)
          rw [if_neg hs1, if_neg hs2]
          exact ih hts _ _ _ _ _ hr hc

/-- Once the walk has exhausted the usage, appending further tiers changes
nothing. -/
theorem tierWalk_append_of_stop (uc : ℚ) (l1 l2 : List Tier) :
    ∀ (r c : ℚ) (p : Option ℚ), (tierWalk uc l1 r c p).2 ≤ 0 →
      tierWalk uc (l1 ++ l2) r c p = tierWalk uc l1 r c p := by
  induction l1 with
  | nil =>
    intro r c p h
    exact tierWalk_of_nonpos uc l2 r c p h
  | cons t l1 ih =>
    intro r c p h
    simp only [tierWalk, List.cons_append] at h ⊢
    split_ifs at h ⊢ with h1 h2
    · rfl
    · exact ih _ _ _ h
    · exact ih _ _ _ h

/-- One-step unfolding of the walk on a non-empty tier list. -/
theorem tierWalk_cons (uc : ℚ) (t : Tier) (ts : List Tier) (r c : ℚ) (p : Option ℚ) :
    tierWalk uc (t :: ts) r c p =
      if r ≤ 0 then (c, r)
      else if 0 < sliceFn r t.up_to p then
        tierWalk uc ts (r - sliceFn r t.up_to p)
          (c + sliceFn r t.up_to p / uc * t.amount) t.up_to
      else tierWalk uc ts r c t.up_to := rfl

/-- If usage remains after walking every tier, the last tier must have a
finite bound. -/
theorem tierWalk_rem_pos_last (uc : ℚ) :
    ∀ (ts : List Tier) (r c : ℚ) (p : Option ℚ),
      0 < (tierWalk uc ts r c p).2 → ts ≠ [] → (lastTier ts).up_to ≠ none := by
  intro ts
  induction ts with
  | nil => intro r c p _ h; exact absurd rfl h
  | cons t ts ih =>
    intro r c p hpos _
    rw [tierWalk_cons] at hpos
    by_cases h1 : r ≤ 0
    · rw [if_pos h1] at hpos
      simp only at hpos
      linarith
    rw [if_neg h1] at hpos
    by_cases h2 : 0 < sliceFn r t.up_to p
    · rw [if_pos h2] at hpos
      cases ts with
      | nil =>
        simp only [tierWalk] at hpos
        cases hb : t.up_to with
        | none =>
          rw [hb] at hpos
          simp only [sliceFn] at hpos
          linarith
        | some b => simp [lastTier, hb]
      | cons t' ts' =>
        have hlast : lastTier (t :: t' :: ts') = lastTier (t' :: ts') := by
          simp [lastTier, List.getLastD_cons]
        rw [hlast]
        exact ih _ _ _ hpos (by simp)
    · rw [if_neg h2] at hpos
      cases ts with
      | nil =>
        cases hb : t.up_to with
        | none =>
          rw [hb] at h2
          simp only [sliceFn] at h2
          exact absurd (lt_of_not_le h1) h2
        | some b => simp [lastTier, hb]
      | cons t' ts' =>
        have hlast : lastTier (t :: t' :: ts') = lastTier (t' :: ts') := by
          simp [lastTier, List.getLastD_cons]
        rw [hlast]
        exact ih _ _ _ hpos (by simp)

theorem stepRem_le {U r p b : ℚ} (hr0 : 0 < r) (hr : r ≤ max (U - p) 0)
    (hs : 0 < min r (b - p)) : r - min r (b - p) ≤ max (U - b) 0 := by
  rcases le_total r (b - p) with h | h
  · rw [min_eq_left h]
    simpa using le_max_right (U - b) 0
  · rw [min_eq_right h]
    rcases le_or_lt 0 (U - p) with hup | hup
    · have hmax : max (U - p) 0 = U - p := max_eq_left hup
      rw [hmax] at hr
      have : r - (b - p) ≤ U - b := by linarith
      exact le_trans this (le_max_left _ _)
    · have hmax : max (U - p) 0 = 0 := max_eq_right hup.le
      rw [hmax] at hr
      exact absurd hr0 (not_lt.mpr hr)

theorem stepRem_skip {U r p b : ℚ} (hr0 : 0 < r) (hr : r ≤ max (U - p) 0)
    (hs : ¬ 0 < min r (b - p)) : r ≤ max (U - b) 0 := by
  have hbp : b - p ≤ 0 := by
    by_contra hpos
    push_neg at hpos
    exact hs (lt_min hr0 hpos)
  refine le_trans hr (max_le_max ?_ (le_refl 0))
  linarith

/-- The walk's remaining usage over tiers with finite bounds is bounded by
the part of the usage `U` exceeding the last bound (start the walk with
`r ≤ max (U - p) 0`). -/
theorem tierWalk_bounded (uc U : ℚ) :
    ∀ (ts : List Tier), (∀ t ∈ ts, t.up_to ≠ none) →
    ∀ (r c p : ℚ), r ≤ max (U - p) 0 → ts ≠ [] →
      (tierWalk uc ts r c (some p)).2 ≤ max (U - ((lastTier ts).up_to.getD 0)) 0 := by
  intro ts
  induction ts with
  | nil => intro _ r c p _ h; exact absurd rfl h
  | cons t ts ih =>
    intro hfin r c p hr _
    obtain ⟨b, hb⟩ : ∃ b, t.up_to = some b := by
      cases hbt : t.up_to with
      | none => exact absurd hbt (hfin t (List.mem_cons_self _ _))
      | some b => exact ⟨b, rfl⟩
    rw [tierWalk_cons]
    by_cases h1 : r ≤ 0
    · rw [if_pos h1]
      simp only
      exact le_trans h1 (le_max_right _ _)
    rw [if_neg h1]
    have hr0 : 0 < r := lt_of_not_le h1
    rw [hb]
    have hslice : sliceFn r (some b) (some p) = min r (b - p) := rfl
    cases ts with
    | nil =>
      have hlast : (lastTier [t]).up_to.getD 0 = b := by simp [lastTier, hb]
      rw [hlast]
      by_cases hs : 0 < sliceFn r (some b) (some p)
      · rw [if_pos hs]
        simp only [tierWalk]
        rw [hslice]
        exact stepRem_le hr0 hr (hslice ▸ hs)
      · rw [if_neg hs]
        simp only [tierWalk]
        exact stepRem_skip hr0 hr (hslice ▸ hs)
    | cons t' ts' =>
      have hlast : lastTier (t :: t' :: ts') = lastTier (t' :: ts') := by
        simp [lastTier, List.getLastD_cons]
      rw [hlast]
      have hfin' : ∀ x ∈ t' :: ts', x.up_to ≠ none :=
        fun x hx => hfin x (List.mem_cons_of_mem _ hx)
      by_cases hs : 0 < sliceFn r (some b) (some p)
      · rw [if_pos hs]
        rw [hslice]
        exact ih hfin' _ _ b (stepRem_le hr0 hr (hslice ▸ hs)) (by simp)
      · rw [if_neg hs]
        exact ih hfin' _ _ b (stepRem_skip hr0 hr (hslice ▸ hs)) (by simp)

/-! ### The last tier: `getLast?`, `getLastD`, membership -/

theorem getLastD_append_singleton :
    ∀ (l : List Tier) (x d : Tier), (l ++ [x]).getLastD d = x := by
  intro l
  induction l with
  | nil => intro x d; rfl
  | cons a l ih =>
    intro x d
    rw [List.cons_append, List.getLastD_cons, ih]

theorem getLast?_eq_lastTier : ∀ (l : List Tier), l ≠ [] → l.getLast? = some (lastTier l) := by
  intro l
  induction l with
  | nil => intro h; exact absurd rfl h
  | cons t ts ih =>
    intro _
    cases ts with
    | nil => rfl
    | cons t' ts' =>
      rw [List.getLast?_cons_cons, ih (by simp)]
      have : lastTier (t :: t' :: ts') = lastTier (t' :: ts') := by
        simp [lastTier, List.getLastD_cons]
      rw [this]

theorem lastTier_mem : ∀ (l : List Tier), l ≠ [] → lastTier l ∈ l := by
  intro l
  induction l with
  | nil => intro h; exact absurd rfl h
  | cons t ts ih =>
    intro _
    cases ts with
    | nil => simp [lastTier]
    | cons t' ts' =>
      have : lastTier (t :: t' :: ts') = lastTier (t' :: ts') := by
        simp [lastTier, List.getLastD_cons]
      rw [this]
      exact List.mem_cons_of_mem _ (ih (by simp))

/-! ### The spec-side fold is the source's walk (claim C1) -/

theorem specStep_stopped (uc : ℚ) (st : WalkState) (t : Tier)
    (h : st.remaining ≤ 0) : specStep uc st t = st := by
  simp [specStep, if_pos h]

theorem foldl_specStep_stopped (uc : ℚ) (ts : List Tier) :
    ∀ st : WalkState, st.remaining ≤ 0 → ts.foldl (specStep uc) st = st := by
  induction ts with
  | nil => intro st _; rfl
  | cons t ts ih =>
    intro st h
    rw [List.foldl_cons, specStep_stopped uc st t h]
    exact ih st h

theorem tierWalk_eq_fold (uc : ℚ) :
    ∀ (ts : List Tier) (r c : ℚ) (p : Option ℚ),
      tierWalk uc ts r c p
        = ((ts.foldl (specStep uc) ⟨p, r, c⟩).cost,
           (ts.foldl (specStep uc) ⟨p, r, c⟩).remaining) := by
  intro ts
  induction ts with
  | nil => intro r c p; rfl
  | cons t ts ih =>
    intro r c p
    rw [tierWalk_cons, List.foldl_cons]
    by_cases h1 : r ≤ 0
    · rw [if_pos h1, specStep_stopped uc _ t h1, foldl_specStep_stopped uc ts _ h1]
    · rw [if_neg h1]
      have hstep : specStep uc ⟨p, r, c⟩ t =
          if 0 < sliceFn r t.up_to p then
            ⟨t.up_to, r - sliceFn r t.up_to p, c + sliceFn r t.up_to p / uc * t.amount⟩
          else ⟨t.up_to, r, c⟩ := by
        simp only [specStep, if_neg h1]
        cases t.up_to with
        | none => rfl
        | some b => cases p with
          | none => rfl
          | some p' => rfl
      rw [hstep]
      by_cases hs : 0 < sliceFn r t.up_to p
      · rw [if_pos hs, if_pos hs, ih]
      · rw [if_neg hs, if_neg hs, ih]

/-! ### The rendered cost has exactly ten fractional digits -/

theorem digitChar_lt_ten_ne_dot (m : Nat) (hm : m < 10) : Nat.digitChar m ≠ '.' := by
  interval_cases m <;> decide

theorem fixedDigits_length (k : Nat) : ∀ n : Nat, (fixedDigits k n).length = k := by
  induction k with
  | zero => intro n; rfl
  | succ k ih =>
    intro n
    simp [fixedDigits, ih]

theorem fixedDigits_ne_dot (k : Nat) : ∀ (n : Nat), ∀ c ∈ fixedDigits k n, c ≠ '.' := by
  induction k with
  | zero => intro n c hc; simp [fixedDigits] at hc
  | succ k ih =>
    intro n c hc
    rcases List.mem_append.mp hc with h | h
    · exact ih _ c h
    · rw [List.mem_singleton.mp h]
      exact digitChar_lt_ten_ne_dot _ (Nat.mod_lt _ (by norm_num))

theorem takeWhile_append_dot (ds rest : List Char) (h : ∀ c ∈ ds, c ≠ '.') :
    (ds ++ '.' :: rest).takeWhile (fun c => c ≠ '.') = ds := by
  induction ds with
  | nil => simp [List.takeWhile]
  | cons d ds ih =>
    have hd : d ≠ '.' := h d (List.mem_cons_self _ _)
    simp only [List.cons_append, List.takeWhile_cons]
    simp only [hd, decide_not]
    simpa using ih (fun c hc => h c (List.mem_cons_of_mem _ hc))

theorem fracDigits_formatFixed10 (q : ℚ) : fracDigits (formatFixed10 q) = 10 := by
  unfold formatFixed10 fracDigits
  set scaled : ℤ := ⌊q * 10 ^ 10 + 1 / 2⌋ with hscaled
  set sign : List Char := if scaled < 0 then ['-'] else [] with hsign
  set intchars : List Char := (Nat.repr (scaled.natAbs / 10 ^ 10)).data with hint
  set frac : List Char := fixedDigits 10 (scaled.natAbs % 10 ^ 10) with hfrac
  have hdata : (String.mk (sign ++ intchars ++ '.' :: frac)).data
      = sign ++ intchars ++ '.' :: frac := rfl
  rw [hdata]
  have hrev : (sign ++ intchars ++ '.' :: frac).reverse
      = frac.reverse ++ '.' :: (intchars.reverse ++ sign.reverse) := by
    simp [List.reverse_append, List.reverse_cons, List.append_assoc]
  rw [hrev, takeWhile_append_dot _ _ ?hne]
  case hne =>
    intro c hc
    exact fixedDigits_ne_dot 10 _ c (List.mem_reverse.mp hc)
  rw [List.length_reverse, hfrac, fixedDigits_length]

/-! ### Sorted prefixes have finite bounds -/

theorem sortTiers_sorted (tiers : List Tier) : List.Sorted tierLe (sortTiers tiers) :=
  List.sorted_insertionSort tierLe tiers

theorem sortTiers_perm (tiers : List Tier) : (sortTiers tiers).Perm tiers :=
  List.perm_insertionSort tierLe tiers

/-- In a sorted tier list, every tier up to (and including) a position with
a finite bound has a finite bound. -/
theorem sorted_take_finite (s : List Tier) (hsort : List.Sorted tierLe s)
    (k : Nat) (hk : k < s.length) (u : ℚ)
    (hu : (s.get ⟨k, hk⟩).up_to = some u) :
    ∀ t ∈ s.take (k + 1), t.up_to ≠ none := by
  intro t ht
  have hsplit : s.take (k + 1) = s.take k ++ [s.get ⟨k, hk⟩] := by
    rw [List.take_succ]
    congr 1
    rw [List.getElem?_eq_getElem hk]
    rfl
  rw [hsplit] at ht
  have hg : tierBound (s.get ⟨k, hk⟩) = (u : WithTop ℚ) := by
    unfold tierBound
    rw [hu]
  have hbt : tierBound t ≤ (u : WithTop ℚ) := by
    rcases List.mem_append.mp ht with h | h
    · have hsorted' : List.Sorted tierLe (s.take (k + 1)) :=
        hsort.sublist (List.take_sublist _ _)
      rw [hsplit] at hsorted'
      have := (List.pairwise_append.mp hsorted').2.2 t h (s.get ⟨k, hk⟩)
        (List.mem_singleton_self _)
      rw [← hg]
      exact this
    · rw [List.mem_singleton.mp h, hg]
  cases hbt' : t.up_to with
  | some b => simp [hbt']
  | none =>
    have : tierBound t = ⊤ := by simp [tierBound, hbt']
    rw [this] at hbt
    exact absurd (top_le_iff.mp hbt) (WithTop.coe_ne_top)

/-! ### Evaluation lemmas for the tier order on concrete tiers -/

theorem tierLe_some_some {a b x y : ℚ} : tierLe ⟨some a, x⟩ ⟨some b, y⟩ ↔ a ≤ b := by
  unfold tierLe tierBound
  exact WithTop.coe_le_coe

theorem tierLe_some_none {a x y : ℚ} : tierLe ⟨some a, x⟩ ⟨none, y⟩ := by
  unfold tierLe tierBound
  exact le_top

theorem tierLe_none_some {b x y : ℚ} : ¬ tierLe ⟨none, x⟩ ⟨some b, y⟩ := by
  unfold tierLe tierBound
  simp only [top_le_iff]
  exact WithTop.coe_ne_top

theorem tierLe_none_none {x y : ℚ} : tierLe ⟨none, x⟩ ⟨none, y⟩ := by
  unfold tierLe tierBound
  exact le_refl _

/-! ### Inversion lemmas for the wallet check -/

theorem finishReserve_cost? (store : Store) (w cost : ℚ) (res : List (String × ℚ)) :
    (finishReserve store w cost res).1.cost? = some cost := by
  unfold finishReserve
  split_ifs <;> rfl

theorem finishReserve_insufficient {store : Store} {w cost : ℚ}
    {res : List (String × ℚ)} {m : String} {c : ℚ} {cs : String}
    {cons : List (String × ℚ)} {final : Store}
    (h : finishReserve store w cost res = (.insufficientFunds m c cs cons, final)) :
    m = insufficientMsg ∧ c = cost ∧ cs = formatFixed10 cost ∧ cons = res ∧
      final = rollback res store ∧ 0 < cost ∧ ¬ cost ≤ w := by
  unfold finishReserve at h
  split_ifs at h with h1 h2
  · simp at h
  · simp only [Prod.mk.injEq, ReserveResult.insufficientFunds.injEq] at h
    exact ⟨h.1.1.symm, h.1.2.1.symm, h.1.2.2.1.symm, h.1.2.2.2.symm, h.2.symm, h1, h2⟩
  · simp at h

theorem finishReserve_success {store : Store} {w cost : ℚ}
    {res : List (String × ℚ)} {m : String} {c : ℚ} {cs : String}
    {cons : List (String × ℚ)} {final : Store}
    (h : finishReserve store w cost res = (.success m c cs cons, final)) :
    m = "Success" ∧ c = cost ∧ cs = formatFixed10 cost ∧ cons = res ∧
      ((0 < cost ∧ cost ≤ w ∧ final = hincr store "wallet_balance" (-cost)) ∨
        (¬ 0 < cost ∧ final = store)) := by
  unfold finishReserve at h
  split_ifs at h with h1 h2
  · simp only [Prod.mk.injEq, ReserveResult.success.injEq] at h
    exact ⟨h.1.1.symm, h.1.2.1.symm, h.1.2.2.1.symm, h.1.2.2.2.symm,
      Or.inl ⟨h1, h2, h.2.symm⟩⟩
  · simp at h
  · simp only [Prod.mk.injEq, ReserveResult.success.injEq] at h
    exact ⟨h.1.1.symm, h.1.2.1.symm, h.1.2.2.1.symm, h.1.2.2.2.symm,
      Or.inr ⟨h1, h.2.symm⟩⟩

/-! ### The claims -/

/-- Claim C1: for usage ≥ 0, any tier list and unit_count > 0, the Tiered
Cost Calculator first sorts the tiers ascending by upper bound (absent
bounds as positive infinity, sorting last), then walks the sorted tiers
with the spec's previous_bound/remaining_usage recurrence, stopping once
remaining_usage ≤ 0 (the equality with `spec_tiered_walk` is stated under
the hypothesis that the walk covers the usage, i.e. no fallback residue
remains); in particular for usage 1500, tiers
[(1000, 0.01), (null, 0.008)] and unit_count 1 the cost is exactly 14. -/
theorem claim_C1 (usage : ℚ) (tiers : List Tier) (unit_count : ℚ)
    (husage : 0 ≤ usage) (huc : 0 < unit_count)
    (hcov : (spec_tiered_walk usage tiers unit_count).2 ≤ 0) :
    List.Sorted tierLe (sortTiers tiers) ∧
    (sortTiers tiers).Perm tiers ∧
    calculate_tiered_cost usage tiers unit_count
      = (spec_tiered_walk usage tiers unit_count).1 ∧
    calculate_tiered_cost 1500 [⟨some 1000, 1/100⟩, ⟨none, 1/125⟩] 1 = 14 := by
  refine ⟨sortTiers_sorted tiers, sortTiers_perm tiers, ?_, ?_⟩
  · have hw : tierWalk unit_count (sortTiers tiers) usage 0 (some 0)
        = spec_tiered_walk usage tiers unit_count :=
      tierWalk_eq_fold unit_count (sortTiers tiers) usage 0 (some 0)
    simp only [calculate_tiered_cost, hw]
    cases hgl : (sortTiers tiers).getLast? with
    | none => rfl
    | some t =>
      simp only
      rw [if_neg (not_lt.mpr hcov)]
  · norm_num [calculate_tiered_cost, sortTiers, List.insertionSort, List.orderedInsert,
      tierLe, tierBound, tierWalk, sliceFn, min_def]

/-- Witness for C1 at the spec's scenario. -/
theorem claim_C1_witness :
    calculate_tiered_cost 1500 [⟨some 1000, 1/100⟩, ⟨none, 1/125⟩] 1
      = (spec_tiered_walk 1500 [⟨some 1000, 1/100⟩, ⟨none, 1/125⟩] 1).1 := by
  have hcov : (spec_tiered_walk 1500 [⟨some 1000, 1/100⟩, ⟨none, 1/125⟩] 1).2 ≤ 0 := by
    norm_num [spec_tiered_walk, specStep, sortTiers, List.insertionSort, List.orderedInsert,
      tierLe, tierBound, min_def]
  exact (claim_C1 1500 [⟨some 1000, 1/100⟩, ⟨none, 1/125⟩] 1 (by norm_num) (by norm_num)
    hcov).2.2.1

/-- Claim C5: if, for a non-empty tier list and unit_count > 0, remaining
usage is still positive after the walk over all sorted tiers, the
calculater charges the remainder at the last sorted tier's rate — and this
can only happen when that tier has a finite upper bound; the result is an
ordinary value, not an error. -/
theorem claim_C5 (usage : ℚ) (tiers : List Tier) (unit_count : ℚ)
    (hne : tiers ≠ []) (huc : 0 < unit_count)
    (hrem : 0 < (tierWalk unit_count (sortTiers tiers) usage 0 (some 0)).2) :
    calculate_tiered_cost usage tiers unit_count
      = (tierWalk unit_count (sortTiers tiers) usage 0 (some 0)).1
        + (tierWalk unit_count (sortTiers tiers) usage 0 (some 0)).2 / unit_count
          * (lastTier (sortTiers tiers)).amount ∧
    (lastTier (sortTiers tiers)).up_to ≠ none := by
  have hsne : sortTiers tiers ≠ [] := by
    intro h
    apply hne
    have hp := sortTiers_perm tiers
    rw [h] at hp
    exact (hp.symm).eq_nil
  constructor
  · simp only [calculate_tiered_cost]
    rw [getLast?_eq_lastTier _ hsne]
    simp only
    rw [if_pos hrem]
  · exact tierWalk_rem_pos_last unit_count _ _ _ _ hrem hsne

/-- Witness for C5: usage 20 over the single tier (10, rate 1). -/
theorem claim_C5_witness :
    calculate_tiered_cost 20 [⟨some 10, 1⟩] 1
      = (tierWalk 1 (sortTiers [⟨some 10, 1⟩]) 20 0 (some 0)).1
        + (tierWalk 1 (sortTiers [⟨some 10, 1⟩]) 20 0 (some 0)).2 / 1
          * (lastTier (sortTiers [⟨some 10, 1⟩])).amount ∧
    (lastTier (sortTiers [⟨some 10, 1⟩])).up_to ≠ none := by
  refine claim_C5 20 [⟨some 10, 1⟩] 1 (by simp) (by norm_num) ?_
  norm_num [sortTiers, List.insertionSort, List.orderedInsert, tierWalk, sliceFn, min_def]

/-- Claim C6 counterexample: with the schedule [(10, rate −1)] and
unit_count 1, cost is strictly decreasing from usage 5 to usage 10, so the
claim's monotonicity fails for an arbitrary (negative-rate) schedule. -/
theorem claim_C6_counterexample :
    (0 : ℚ) < 1 ∧ (5 : ℚ) ≤ 10 ∧
    ¬ calculate_tiered_cost 5 [⟨some 10, -1⟩] 1 ≤ calculate_tiered_cost 10 [⟨some 10, -1⟩] 1 := by
  refine ⟨by norm_num, by norm_num, ?_⟩
  norm_num [calculate_tiered_cost, sortTiers, List.insertionSort, List.orderedInsert,
    tierWalk, sliceFn, min_def]

/-- Claim C6 (amended): for a fixed tier schedule all of whose rates are
nonnegative and fixed unit_count > 0, the tiered cost is non-decreasing in
usage. -/
theorem claim_C6 (tiers : List Tier) (unit_count : ℚ) (huc : 0 < unit_count)
    (hrates : ∀ t ∈ tiers, 0 ≤ t.amount) (u1 u2 : ℚ) (h : u1 ≤ u2) :
    calculate_tiered_cost u1 tiers unit_count ≤ calculate_tiered_cost u2 tiers unit_count := by
  have hrs : ∀ t ∈ sortTiers tiers, 0 ≤ t.amount :=
    fun t ht => hrates t ((sortTiers_perm tiers).mem_iff.mp ht)
  have W := tierWalk_mono unit_count huc (sortTiers tiers) hrs u1 u2 0 0 (some 0) h le_rfl
  simp only [calculate_tiered_cost]
  cases hgl : (sortTiers tiers).getLast? with
  | none => simpa using W.1
  | some t =>
    have hmem : t ∈ sortTiers tiers := by
      have hsne : sortTiers tiers ≠ [] := by
        intro hh
        rw [hh] at hgl
        simp at hgl
      have hlt := getLast?_eq_lastTier _ hsne
      rw [hgl] at hlt
      have ht : t = lastTier (sortTiers tiers) := by
        injection hlt
      rw [ht]
      exact lastTier_mem _ hsne
    have hamt : 0 ≤ t.amount := hrs t hmem
    simp only
    split_ifs with h1 h2 h2
    · have hterm : (tierWalk unit_count (sortTiers tiers) u1 0 (some 0)).2 / unit_count * t.amount
          ≤ (tierWalk unit_count (sortTiers tiers) u2 0 (some 0)).2 / unit_count * t.amount := by
        gcongr
        exact W.2
      linarith [W.1]
    · linarith [W.2]
    · have hterm : 0 ≤ (tierWalk unit_count (sortTiers tiers) u2 0 (some 0)).2 / unit_count
          * t.amount :=
        mul_nonneg (div_nonneg (le_of_lt h2) (le_of_lt huc)) hamt
      linarith [W.1]
    · exact W.1

/-- Witness for C6 (amended) at the scenario schedule. -/
theorem claim_C6_witness :
    calculate_tiered_cost 700 [⟨some 1000, 1/100⟩, ⟨none, 1/125⟩] 1
      ≤ calculate_tiered_cost 1500 [⟨some 1000, 1/100⟩, ⟨none, 1/125⟩] 1 := by
  refine claim_C6 [⟨some 1000, 1/100⟩, ⟨none, 1/125⟩] 1 (by norm_num) ?_ 700 1500 (by norm_num)
  intro t ht
  rcases List.mem_cons.mp ht with h | h
  · rw [h]; norm_num
  · rcases List.mem_cons.mp h with h' | h'
    · rw [h']; norm_num
    · simp at h'

/-- Claim C7: usage exactly equal to the upper bound of the sorted tier at
index k is consumed entirely by the first k+1 sorted tiers — the walk over
that prefix exhausts it, and the total cost equals the cost of walking just
that prefix, so no part of the usage is charged at any later tier's rate
(and no fallback applies). -/
theorem claim_C7 (tiers : List Tier) (unit_count : ℚ) (huc : 0 < unit_count)
    (k : Nat) (hk : k < (sortTiers tiers).length) (u : ℚ)
    (hu : ((sortTiers tiers).get ⟨k, hk⟩).up_to = some u) :
    (tierWalk unit_count ((sortTiers tiers).take (k + 1)) u 0 (some 0)).2 ≤ 0 ∧
    calculate_tiered_cost u tiers unit_count
      = (tierWalk unit_count ((sortTiers tiers).take (k + 1)) u 0 (some 0)).1 := by
  have hfin : ∀ t ∈ (sortTiers tiers).take (k + 1), t.up_to ≠ none :=
    sorted_take_finite (sortTiers tiers) (sortTiers_sorted tiers) k hk u hu
  have hsplit : (sortTiers tiers).take (k + 1)
      = (sortTiers tiers).take k ++ [(sortTiers tiers).get ⟨k, hk⟩] := by
    rw [List.take_succ]
    congr 1
    rw [List.getElem?_eq_getElem hk]
    rfl
  have htne : (sortTiers tiers).take (k + 1) ≠ [] := by
    rw [hsplit]
    intro hh
    have hlen := congrArg List.length hh
    simp at hlen
    rw [hlen] at hk
    simp at hk
  have hlastt : (lastTier ((sortTiers tiers).take (k + 1))).up_to.getD 0 = u := by
    rw [hsplit]
    unfold lastTier
    rw [getLastD_append_singleton, hu]
    rfl
  have hA : (tierWalk unit_count ((sortTiers tiers).take (k + 1)) u 0 (some 0)).2 ≤ 0 := by
    have hb := tierWalk_bounded unit_count u ((sortTiers tiers).take (k + 1)) hfin u 0 0
      (by simpa using le_max_left u 0) htne
    rw [hlastt] at hb
    simpa using hb
  refine ⟨hA, ?_⟩
  have hsplit2 : tierWalk unit_count (sortTiers tiers) u 0 (some 0)
      = tierWalk unit_count ((sortTiers tiers).take (k + 1)) u 0 (some 0) := by
    conv_lhs => rw [← List.take_append_drop (k + 1) (sortTiers tiers)]
    exact tierWalk_append_of_stop unit_count _ _ _ _ _ hA
  simp only [calculate_tiered_cost, hsplit2]
  cases hgl : (sortTiers tiers).getLast? with
  | none => rfl
  | some t =>
    simp only
    rw [if_neg (not_lt.mpr hA)]

/-- Witness for C7: usage 10 equals the first sorted tier bound of
[(10, rate 1), (20, rate 2)]. -/
theorem claim_C7_witness :
    (tierWalk 1 ((sortTiers [⟨some 10, 1⟩, ⟨some 20, 2⟩]).take 1) 10 0 (some 0)).2 ≤ 0 ∧
    calculate_tiered_cost 10 [⟨some 10, 1⟩, ⟨some 20, 2⟩] 1
      = (tierWalk 1 ((sortTiers [⟨some 10, 1⟩, ⟨some 20, 2⟩]).take 1) 10 0 (some 0)).1 := by
  refine claim_C7 [⟨some 10, 1⟩, ⟨some 20, 2⟩] 1 (by norm_num) 0 ?_ 10 ?_
  case _ =>
    norm_num [sortTiers, List.insertionSort, List.orderedInsert, tierLe_some_some]
  case _ =>
    norm_num [sortTiers, List.insertionSort, List.orderedInsert, tierLe_some_some]

/-- Claim C3: when uncovered usage remains after the entitlement loop, a
non-empty tier schedule prices it through the tiered calculator (taking
precedence over flat); otherwise a positive flat_amount prices it as
(uncovered / unit_count) * flat_amount; otherwise the call returns
UnconfiguredOverage immediately, leaving the entitlement decrements of the
consumption loop committed (no rollback on this path). -/
theorem claim_C3 (store0 : Store) (total_usage : ℚ) (ids : List String)
    (flat_amount unit_count : ℚ) (tiers : List Tier)
    (hunc : 0 < (consumeLoop store0 ids store0 total_usage []).2.1) :
    (tiers ≠ [] →
      (reserve_feature store0 total_usage ids flat_amount unit_count tiers).1.cost?
        = some (calculate_tiered_cost
            (consumeLoop store0 ids store0 total_usage []).2.1 tiers unit_count)) ∧
    (tiers = [] → 0 < flat_amount →
      (reserve_feature store0 total_usage ids flat_amount unit_count tiers).1.cost?
        = some ((consumeLoop store0 ids store0 total_usage []).2.1
            / unit_count * flat_amount)) ∧
    (tiers = [] → ¬ 0 < flat_amount →
      reserve_feature store0 total_usage ids flat_amount unit_count tiers
        = (.unconfiguredOverage unconfiguredMsg,
           (consumeLoop store0 ids store0 total_usage []).1)) := by
  refine ⟨?_, ?_, ?_⟩
  · intro ht
    simp only [reserve_feature]
    rw [if_pos hunc, if_pos ht]
    exact finishReserve_cost? _ _ _ _
  · intro ht hf
    simp only [reserve_feature]
    rw [if_pos hunc, if_neg (by simp [ht]), if_pos hf]
    exact finishReserve_cost? _ _ _ _
  · intro ht hf
    simp only [reserve_feature]
    rw [if_pos hunc, if_neg (by simp [ht]), if_neg hf]

/-- Witness for C3 on the unconfigured-overage branch: entitlement 9 is
partially drained and the decrement stays committed. -/
theorem claim_C3_witness :
    reserve_feature [("entitlement:9", 5)] 10 ["9"] 0 1 []
      = (.unconfiguredOverage unconfiguredMsg,
         (consumeLoop [("entitlement:9", 5)] ["9"] [("entitlement:9", 5)] 10 []).1) := by
  refine (claim_C3 [("entitlement:9", 5)] 10 ["9"] 0 1 [] ?_).2.2 rfl (by norm_num)
  norm_num +decide [consumeLoop, hget, entKey, min_def]

/-- Claim C2 counterexample: with the duplicate entitlement list
["7", "7"], the InsufficientFunds path does not restore the pre-call
balance of entitlement 7 (it was decremented twice off the one-time
snapshot but restored once). -/
theorem claim_C2_counterexample :
    (reserve_feature [("wallet_balance", 0), ("entitlement:7", 100)] 300 ["7", "7"] 1 1 []).1
      = .insufficientFunds insufficientMsg 100 (formatFixed10 100) [("7", 100)] ∧
    hget (reserve_feature [("wallet_balance", 0), ("entitlement:7", 100)] 300
        ["7", "7"] 1 1 []).2 "entitlement:7"
      ≠ hget [("wallet_balance", (0 : ℚ)), ("entitlement:7", 100)] "entitlement:7" := by
  constructor
  · norm_num +decide [reserve_feature, consumeLoop, hget, hincr, entKey, setEntry,
      finishReserve, rollback, min_def]
  · norm_num +decide [reserve_feature, consumeLoop, hget, hincr, entKey, setEntry,
      finishReserve, rollback, min_def]

/-- Claim C2 (amended): for reserve calls whose entitlement_ids contain no
duplicate id, an InsufficientFunds outcome restores every ledger field to
its pre-call value (entitlements compensated, wallet untouched), and the
result carries the computed overage cost — which exceeded the snapshot
wallet balance — together with the attempted-and-rolled-back consumption
map. -/
theorem claim_C2 (store0 : Store) (total_usage : ℚ) (ids : List String)
    (flat_amount unit_count : ℚ) (tiers : List Tier) (hnd : ids.Nodup)
    (m : String) (c : ℚ) (cs : String) (cons : List (String × ℚ)) (final : Store)
    (h : reserve_feature store0 total_usage ids flat_amount unit_count tiers
        = (.insufficientFunds m c cs cons, final)) :
    (∀ k, hget final k = hget store0 k) ∧
    cons = (consumeLoop store0 ids store0 total_usage []).2.2 ∧
    c = replayCost (consumeLoop store0 ids store0 total_usage []).2.1
          tiers flat_amount unit_count ∧
    0 < c ∧ ¬ c ≤ hget store0 "wallet_balance" := by
  have hrestore : ∀ k,
      hget (rollback (consumeLoop store0 ids store0 total_usage []).2.2
        (consumeLoop store0 ids store0 total_usage []).1) k = hget store0 k :=
    fun k => consumeLoop_restore store0 ids hnd store0 total_usage []
      (fun id _ => rfl) k
  simp only [reserve_feature] at h
  by_cases hunc : 0 < (consumeLoop store0 ids store0 total_usage []).2.1
  · rw [if_pos hunc] at h
    by_cases ht : tiers ≠ []
    · rw [if_pos ht] at h
      obtain ⟨hm, hc, hcs, hcons, hfinal, hpos, hwal⟩ := finishReserve_insufficient h
      refine ⟨?_, hcons, ?_, hc ▸ hpos, hc ▸ hwal⟩
      · intro k
        rw [hfinal]
        exact hrestore k
      · rw [hc, replayCost, if_pos ht]
    · rw [if_neg ht] at h
      by_cases hf : 0 < flat_amount
      · rw [if_pos hf] at h
        obtain ⟨hm, hc, hcs, hcons, hfinal, hpos, hwal⟩ := finishReserve_insufficient h
        refine ⟨?_, hcons, ?_, hc ▸ hpos, hc ▸ hwal⟩
        · intro k
          rw [hfinal]
          exact hrestore k
        · rw [hc, replayCost, if_neg ht, if_pos hf]
      · rw [if_neg hf] at h
        simp at h
  · rw [if_neg hunc] at h
    obtain ⟨_, _, _, _, _, hpos, _⟩ := finishReserve_insufficient h
    exact absurd hpos (by norm_num)

/-- Witness for C2 (amended): flat-priced overage of cost 1 against an
empty wallet. -/
theorem claim_C2_witness :
    hget (reserve_feature [("wallet_balance", 0)] 1 [] 1 1 []).2 "wallet_balance"
      = hget [("wallet_balance", (0 : ℚ))] "wallet_balance" := by
  have heq : reserve_feature [("wallet_balance", 0)] 1 [] 1 1 []
      = (.insufficientFunds insufficientMsg 1 (formatFixed10 1) [], [("wallet_balance", 0)]) := by
    norm_num +decide [reserve_feature, consumeLoop, hget, finishReserve, rollback]
  have h := claim_C2 [("wallet_balance", 0)] 1 [] 1 1 [] (by simp)
    insufficientMsg 1 (formatFixed10 1) [] [("wallet_balance", 0)] heq
  exact (congrArg (fun s => hget s "wallet_balance") (congrArg Prod.snd heq)).trans
    (h.1 "wallet_balance")

/-- Claim C4 counterexample: with the duplicate entitlement list
["7", "7"], a Success outcome leaves entitlement 7 at −100 although every
stored amount was nonnegative before the call. -/
theorem claim_C4_counterexample :
    (∀ k, 0 ≤ hget [("entitlement:7", (100 : ℚ))] k) ∧
    ¬ 0 ≤ hget (reserve_feature [("entitlement:7", 100)] 200 ["7", "7"] 0 1 []).2
        "entitlement:7" := by
  constructor
  · intro k
    simp only [hget]
    split_ifs <;> norm_num
  · norm_num +decide [reserve_feature, consumeLoop, hget, hincr, entKey, setEntry,
      finishReserve, rollback, min_def]

/-- Nonnegativity is preserved through the wallet check / rollback step. -/
theorem finishReserve_nonneg {store1 : Store} {w cost : ℚ} {res : List (String × ℚ)}
    (store0 : Store) (hpos : ∀ q, 0 ≤ hget store1 q)
    (hw : hget store1 "wallet_balance" = w)
    (hroll : ∀ q, hget (rollback res store1) q = hget store0 q)
    (hpre : ∀ q, 0 ≤ hget store0 q) :
    ∀ k, 0 ≤ hget (finishReserve store1 w cost res).2 k := by
  intro k
  unfold finishReserve
  split_ifs with h1 h2
  · rw [hget_hincr]
    split_ifs with hk
    · rw [← hk, hw]
      linarith
    · exact hpos k
  · rw [hroll k]
    exact hpre k
  · exact hpos k

/-- Claim C4 (amended): for every reserve call whose entitlement_ids
contain no duplicate id, if every stored amount is nonnegative before the
call then every stored amount is nonnegative after it, for any
total_usage ≥ 0 and any pricing policy. -/
theorem claim_C4 (store0 : Store) (total_usage : ℚ) (ids : List String)
    (flat_amount unit_count : ℚ) (tiers : List Tier) (hnd : ids.Nodup)
    (husage : 0 ≤ total_usage) (hpre : ∀ k, 0 ≤ hget store0 k) :
    ∀ k, 0 ≤ hget (reserve_feature store0 total_usage ids flat_amount unit_count tiers).2 k := by
  intro k
  have hstore1 : ∀ q, 0 ≤ hget (consumeLoop store0 ids store0 total_usage []).1 q :=
    consumeLoop_nonneg store0 ids hnd store0 total_usage [] (fun id _ => rfl) hpre
  have hwallet1 : hget (consumeLoop store0 ids store0 total_usage []).1 "wallet_balance"
      = hget store0 "wallet_balance" := by
    apply consumeLoop_untouched
    intro hmem
    rcases List.mem_map.mp hmem with ⟨id, _, hid⟩
    exact entKey_ne_wallet id hid
  have hroll : ∀ q,
      hget (rollback (consumeLoop store0 ids store0 total_usage []).2.2
        (consumeLoop store0 ids store0 total_usage []).1) q = hget store0 q :=
    fun q => consumeLoop_restore store0 ids hnd store0 total_usage []
      (fun id _ => rfl) q
  simp only [reserve_feature]
  by_cases hunc : 0 < (consumeLoop store0 ids store0 total_usage []).2.1
  · rw [if_pos hunc]
    by_cases ht : tiers ≠ []
    · rw [if_pos ht]
      exact finishReserve_nonneg store0 hstore1 hwallet1 hroll hpre k
    · rw [if_neg ht]
      by_cases hf : 0 < flat_amount
      · rw [if_pos hf]
        exact finishReserve_nonneg store0 hstore1 hwallet1 hroll hpre k
      · rw [if_neg hf]
        exact hstore1 k
  · rw [if_neg hunc]
    exact finishReserve_nonneg store0 hstore1 hwallet1 hroll hpre k

/-- Witness for C4 (amended): entitlement 7 is drained to 0 and usage
stays uncovered; all fields remain nonnegative. -/
theorem claim_C4_witness :
    0 ≤ hget (reserve_feature [("entitlement:7", 100)] 200 ["7"] 0 1 []).2
        "entitlement:7" :=
  claim_C4 [("entitlement:7", 100)] 200 ["7"] 0 1 [] (by simp) (by norm_num)
    (fun k => by simp only [hget]; split_ifs <;> norm_num) "entitlement:7"

theorem calculate_tiered_cost_zero (tiers : List Tier) (unit_count : ℚ) :
    calculate_tiered_cost 0 tiers unit_count = 0 := by
  simp only [calculate_tiered_cost]
  rw [tierWalk_of_nonpos unit_count _ 0 0 (some 0) le_rfl]
  cases hgl : (sortTiers tiers).getLast? with
  | none => rfl
  | some t =>
    simp only
    rw [if_neg (by norm_num)]

theorem replayCost_zero (tiers : List Tier) (flat_amount unit_count : ℚ) :
    replayCost 0 tiers flat_amount unit_count = 0 := by
  unfold replayCost
  split_ifs with h1 h2
  · exact calculate_tiered_cost_zero tiers unit_count
  · simp
  · rfl

/-- Claim C8 counterexample: with the duplicate entitlement list
["7", "7"], the recorded consumption under-reports the double decrement,
so replaying the flat formula on total_usage minus the recorded
consumption (200 units at rate 1000) exceeds cost_charged (100000 for 100
units) plus the recorded consumption (100). -/
theorem claim_C8_counterexample :
    (reserve_feature [("wallet_balance", 1000000), ("entitlement:7", 100)] 300
        ["7", "7"] 1000 1 []).1
      = .success "Success" 100000 (formatFixed10 100000) [("7", 100)] ∧
    ¬ replayCost (300 - entrySum [("7", (100 : ℚ))]) [] 1000 1
        ≤ 100000 + entrySum [("7", (100 : ℚ))] := by
  constructor
  · norm_num +decide [reserve_feature, consumeLoop, hget, hincr, entKey, setEntry,
      finishReserve, min_def]
  · norm_num [replayCost, entrySum]

/-- Claim C8 (amended): for every reservation request with duplicate-free
entitlement_ids and total_usage ≥ 0 that returns Success, the cost charged
plus the summed consumption map is at least the cost obtained by replaying
the tier/flat pricing on total_usage minus the consumed entitlements. -/
theorem claim_C8 (store0 : Store) (total_usage : ℚ) (ids : List String)
    (flat_amount unit_count : ℚ) (tiers : List Tier) (hnd : ids.Nodup)
    (husage : 0 ≤ total_usage)
    (m : String) (c : ℚ) (cs : String) (cons : List (String × ℚ)) (final : Store)
    (h : reserve_feature store0 total_usage ids flat_amount unit_count tiers
        = (.success m c cs cons, final)) :
    replayCost (total_usage - entrySum cons) tiers flat_amount unit_count
      ≤ c + entrySum cons := by
  have hsum := consumeLoop_sum store0 ids hnd store0 total_usage [] (fun id _ => rfl)
  have hpose := consumeLoop_pos_entries store0 ids store0 total_usage []
    (by intro p hp; simp at hp)
  have hsnn : 0 ≤ entrySum (consumeLoop store0 ids store0 total_usage []).2.2 := by
    unfold entrySum
    apply List.sum_nonneg
    intro x hx
    rcases List.mem_map.mp hx with ⟨p, hp, hpx⟩
    rw [← hpx]
    exact le_of_lt (hpose p hp)
  have hueq : total_usage - entrySum (consumeLoop store0 ids store0 total_usage []).2.2
      = (consumeLoop store0 ids store0 total_usage []).2.1 := by
    rw [hsum]
    simp [entrySum]
  simp only [reserve_feature] at h
  by_cases hunc : 0 < (consumeLoop store0 ids store0 total_usage []).2.1
  · rw [if_pos hunc] at h
    by_cases ht : tiers ≠ []
    · rw [if_pos ht] at h
      obtain ⟨_, hc, _, hcons, _⟩ := finishReserve_success h
      rw [hcons, hueq, hc, replayCost, if_pos ht]
      linarith [hcons ▸ hsnn]
    · rw [if_neg ht] at h
      by_cases hf : 0 < flat_amount
      · rw [if_pos hf] at h
        obtain ⟨_, hc, _, hcons, _⟩ := finishReserve_success h
        rw [hcons, hueq, hc, replayCost, if_neg ht, if_pos hf]
        linarith [hcons ▸ hsnn]
      · rw [if_neg hf] at h
        simp at h
  · rw [if_neg hunc] at h
    obtain ⟨_, hc, _, hcons, _⟩ := finishReserve_success h
    have hunc0 : (consumeLoop store0 ids store0 total_usage []).2.1 = 0 :=
      le_antisymm (not_lt.mp hunc)
        (consumeLoop_unc_nonneg store0 ids store0 total_usage [] husage)
    rw [hcons, hueq, hunc0, hc, replayCost_zero]
    linarith [hcons ▸ hsnn]

/-- Witness for C8 (amended): flat-priced overage fully covered by the
wallet. -/
theorem claim_C8_witness :
    replayCost (3 - entrySum []) [] 2 1 ≤ 6 + entrySum [] := by
  have heq : reserve_feature [("wallet_balance", 100)] 3 [] 2 1 []
      = (.success "Success" 6 (formatFixed10 6) [], [("wallet_balance", 94)]) := by
    norm_num +decide [reserve_feature, consumeLoop, hget, hincr, finishReserve]
  exact claim_C8 [("wallet_balance", 100)] 3 [] 2 1 [] (by simp) (by norm_num)
    "Success" 6 (formatFixed10 6) [] [("wallet_balance", 94)] heq

/-- Every run of the script either returns the bare UnconfiguredOverage
pair or goes through the wallet check with some cost. -/
theorem reserve_feature_cases (store0 : Store) (total_usage : ℚ) (ids : List String)
    (flat_amount unit_count : ℚ) (tiers : List Tier) :
    reserve_feature store0 total_usage ids flat_amount unit_count tiers
        = (.unconfiguredOverage unconfiguredMsg,
           (consumeLoop store0 ids store0 total_usage []).1) ∨
    ∃ cost, reserve_feature store0 total_usage ids flat_amount unit_count tiers
        = finishReserve (consumeLoop store0 ids store0 total_usage []).1
            (hget store0 "wallet_balance") cost
            (consumeLoop store0 ids store0 total_usage []).2.2 := by
  simp only [reserve_feature]
  split_ifs with h1 h2 h3
  · exact Or.inr ⟨_, rfl⟩
  · exact Or.inr ⟨_, rfl⟩
  · exact Or.inl rfl
  · exact Or.inr ⟨0, rfl⟩

/-- Claim C9 counterexample: the UnconfiguredOverage return carries only a
status and message — no cost_charged and no consumption map — so the claim
fails for requests that hit that path. -/
theorem claim_C9_counterexample :
    (reserve_feature [] 1 [] 0 1 []).1 = .unconfiguredOverage unconfiguredMsg ∧
    ((reserve_feature [] 1 [] 0 1 []).1).costStr? = none ∧
    ((reserve_feature [] 1 [] 0 1 []).1).consumption? = none := by
  have heq : (reserve_feature [] 1 [] 0 1 []).1 = .unconfiguredOverage unconfiguredMsg := by
    norm_num [reserve_feature, consumeLoop, hget, finishReserve]
  exact ⟨heq, by rw [heq]; rfl, by rw [heq]; rfl⟩

/-- Claim C9 (amended): Success and InsufficientFunds results carry a
cost_charged rendered with exactly ten fractional digits (together with
the consumption map present in those constructors); UnconfiguredOverage
results carry only the status and message. -/
theorem claim_C9 (store0 : Store) (total_usage : ℚ) (ids : List String)
    (flat_amount unit_count : ℚ) (tiers : List Tier) :
    (∀ m c cs cons final,
      reserve_feature store0 total_usage ids flat_amount unit_count tiers
          = (.success m c cs cons, final) →
        cs = formatFixed10 c ∧ fracDigits cs = 10) ∧
    (∀ m c cs cons final,
      reserve_feature store0 total_usage ids flat_amount unit_count tiers
          = (.insufficientFunds m c cs cons, final) →
        cs = formatFixed10 c ∧ fracDigits cs = 10) := by
  rcases reserve_feature_cases store0 total_usage ids flat_amount unit_count tiers with
    hcase | ⟨cost, hcase⟩
  · constructor
    · intro m c cs cons final h
      rw [hcase] at h
      simp at h
    · intro m c cs cons final h
      rw [hcase] at h
      simp at h
  · constructor
    · intro m c cs cons final h
      rw [hcase] at h
      obtain ⟨_, hc, hcs, _, _⟩ := finishReserve_success h
      refine ⟨?_, ?_⟩
      · rw [hcs, hc]
      · rw [hcs]
        exact fracDigits_formatFixed10 cost
    · intro m c cs cons final h
      rw [hcase] at h
      obtain ⟨_, hc, hcs, _, _, _, _⟩ := finishReserve_insufficient h
      refine ⟨?_, ?_⟩
      · rw [hcs, hc]
      · rw [hcs]
        exact fracDigits_formatFixed10 cost

/-- Witness for C9 (amended) on a zero-cost Success. -/
theorem claim_C9_witness :
    formatFixed10 0 = formatFixed10 0 ∧ fracDigits (formatFixed10 0) = 10 := by
  refine (claim_C9 [] 0 [] 0 1 []).1 "Success" 0 (formatFixed10 0) [] [] ?_
  norm_num [reserve_feature, consumeLoop, hget, finishReserve]

/-- Claim C10: the consumption loop prices every occurrence of an id
against the one-time snapshot and its in-memory record is overwritten by
the last occurrence: when an id occurs twice with positive snapshot
balance b and uncovered usage at least 2b, the entitlement is decremented
by 2b in total, while the recorded (and, on rollback, restored) amount is
only b — the total decrement exceeds both the snapshot balance and the
recorded amount. -/
theorem claim_C10 (store0 : Store) (i : String) (u : ℚ)
    (hb : 0 < hget store0 (entKey i)) (hu : 2 * hget store0 (entKey i) ≤ u) :
    hget store0 (entKey i) - hget (consumeLoop store0 [i, i] store0 u []).1 (entKey i)
      = 2 * hget store0 (entKey i) ∧
    (consumeLoop store0 [i, i] store0 u []).2.2 = [(i, hget store0 (entKey i))] ∧
    hget store0 (entKey i) < 2 * hget store0 (entKey i) := by
  have h1 : ¬ u ≤ 0 := not_le.mpr (by linarith)
  have hmin1 : min u (hget store0 (entKey i)) = hget store0 (entKey i) :=
    min_eq_right (by linarith)
  simp only [consumeLoop]
  rw [if_neg h1, if_pos hb, hmin1]
  have h2 : ¬ u - hget store0 (entKey i) ≤ 0 := not_le.mpr (by linarith)
  rw [if_neg h2, if_pos hb]
  have hmin2 : min (u - hget store0 (entKey i)) (hget store0 (entKey i))
      = hget store0 (entKey i) :=
    min_eq_right (by linarith)
  rw [hmin2]
  refine ⟨?_, ?_, by linarith⟩
  · rw [hget_hincr_self, hget_hincr_self]
    ring
  · simp [setEntry]

/-- Witness for C10: entitlement 7 with snapshot balance 100, id listed
twice, usage 300. -/
theorem claim_C10_witness :
    hget [("entitlement:7", (100 : ℚ))] (entKey "7")
        - hget (consumeLoop [("entitlement:7", 100)] ["7", "7"]
            [("entitlement:7", 100)] 300 []).1 (entKey "7")
      = 2 * hget [("entitlement:7", (100 : ℚ))] (entKey "7") ∧
    (consumeLoop [("entitlement:7", 100)] ["7", "7"]
        [("entitlement:7", 100)] 300 []).2.2
      = [("7", hget [("entitlement:7", (100 : ℚ))] (entKey "7"))] ∧
    hget [("entitlement:7", (100 : ℚ))] (entKey "7")
      < 2 * hget [("entitlement:7", (100 : ℚ))] (entKey "7") := by
  refine claim_C10 [("entitlement:7", 100)] "7" 300 ?_ ?_
  · norm_num +decide [hget, entKey]
  · norm_num +decide [hget, entKey]

end ReserveFeature
